import Mathlib

/-!
Verification development for the hnn-core alpha/beta tutorial pipeline.

The repository's visible source (examples/plot_simulate_alpha.py) is a
tutorial script that parameterizes two components specified in spec.md:
the stochastic bursty drive-train generator (add_bursty_drive / generate)
and the dipole signal processor (smooth, psd).  The implementations of
those components are not part of the visible source tree, so the
definitions below are modelled from the specification's own words; each
such definition carries a doc comment starting "Modelled from the spec:".
Times are in milliseconds, rates in Hz; real-valued quantities are
embedded as rationals.
-/

namespace HnnCore

/-- Modelled from the spec: the error taxonomy of section 7.  The spec names
InvalidParameterError for malformed specs (mutually exclusive options both or
neither set, out-of-range numeric fields, horizon inconsistent with start
time) and for the psd band/trial checks of section 4.2. -/
inductive ProcError where
  | invalidParameter
deriving DecidableEq

/-- Modelled from the spec: BurstTrainSpec, the immutable drive
configuration (start time in ms, burst rate in Hz, burst-onset jitter
standard deviation in ms, spikes per burst, intra-burst inter-spike
interval in ms, number of burst repeats, random seed).  The opaque
target-location tag and the per-target weight/delay mappings of the data
model play no role in event generation and are omitted. -/
structure BurstTrainSpec where
  tstart : ℚ
  burst_rate : ℚ
  burst_std : ℚ
  numspikes : ℕ
  spike_isi : ℚ
  repeats : ℕ
  seedcore : ℕ
deriving DecidableEq

/-- Modelled from the spec: SpikeEvent, a single scheduled event with an
absolute time (ms), the originating burst index and the spike-within-burst
index; never mutated after creation. -/
structure SpikeEvent where
  time : ℚ
  burst : ℕ
  spike : ℕ
deriving DecidableEq

/-- Modelled from the spec: one step of the explicitly seeded pseudo-random
stream the generator owns per invocation (section 9 randomness threading).
The concrete distribution is irrelevant to the claims proved here; a linear
congruential step stands in for the library stream. -/
def lcg (s : ℕ) : ℕ := (1103515245 * s + 12345) % 2147483648

/-- Modelled from the spec: the i-th draw of the seeded stream. -/
def streamNth (seed i : ℕ) : ℕ := lcg^[i + 1] seed

/-- Modelled from the spec: the per-burst onset jitter sample in ms, an
independent draw per burst from the seeded stream, symmetric around 0 (a
rational surrogate for the normal distribution with mean 0; normality
itself is a statistical property outside the claims proved here). -/
def jitterSample (seed i : ℕ) : ℚ := ((streamNth seed i % 161 : ℕ) : ℚ) - 80

/-- Modelled from the spec: the nominal burst period, 1000 / burst_rate ms. -/
def burstPeriod (spec : BurstTrainSpec) : ℚ := 1000 / spec.burst_rate

/-- Modelled from the spec: the jittered onset of burst i.  The nominal
onset is tstart + i * (1000/burst_rate); it is perturbed by the burst's
jitter draw, and (taking the clamping branch of the spec's stated design
choice, section 9) a jittered onset never precedes its nominal slot. -/
def burstOnset (spec : BurstTrainSpec) (i : ℕ) : ℚ :=
  spec.tstart + i * burstPeriod spec + max 0 (jitterSample spec.seedcore i)

/-- Modelled from the spec: the events of burst i — numspikes spikes at
fixed offsets of spike_isi ms from the jittered onset, with no further
jitter within the burst. -/
def burstEvents (spec : BurstTrainSpec) (i : ℕ) : List SpikeEvent :=
  (List.range spec.numspikes).map
    (fun (k : ℕ) => ⟨burstOnset spec i + (k : ℚ) * spec.spike_isi, i, k⟩)

/-- Modelled from the spec: all events of the burst train before horizon
filtering and sorting: repeats bursts, each independently jittered. -/
def rawEvents (spec : BurstTrainSpec) : List SpikeEvent :=
  (List.range spec.repeats).flatMap (burstEvents spec)

/-- Ordering of spike events by ascending time. -/
def timeLE (a b : SpikeEvent) : Prop := a.time ≤ b.time

instance : DecidableRel timeLE := fun a b => inferInstanceAs (Decidable (a.time ≤ b.time))

instance : IsTotal SpikeEvent timeLE := ⟨fun a b => le_total a.time b.time⟩

instance : IsTrans SpikeEvent timeLE := ⟨fun _ _ _ h h' => le_trans h h'⟩

/-- Modelled from the spec: generate(spec, horizon).  Validation (section
4.1): fails with InvalidParameterError if burst rate ≤ 0, numspikes < 1,
repeats < 1, or horizon < start time.  Otherwise produces the jittered
burst-train events, drops any event scheduled beyond the horizon, and
returns them ordered by ascending time. -/
def generate (spec : BurstTrainSpec) (horizon : ℚ) :
    Except ProcError (List SpikeEvent) :=
  if 0 < spec.burst_rate ∧ 1 ≤ spec.numspikes ∧ 1 ≤ spec.repeats ∧ spec.tstart ≤ horizon then
    .ok (List.insertionSort timeLE
      ((rawEvents spec).filter (fun e => decide (e.time ≤ horizon))))
  else
    .error .invalidParameter

/-- Events of a successful generation, the empty list on error. -/
def eventsOf (r : Except ProcError (List SpikeEvent)) : List SpikeEvent :=
  r.toOption.getD []

/-- Modelled from the spec: the concrete BurstTrainSpec of the tutorial's
proximal alpha drive and of the section 8 scenario (start 50 ms, 10 Hz,
20 ms jitter std, 2 spikes per burst, 10 ms isi, 10 repeats, seed 14). -/
def alphaSpec : BurstTrainSpec :=
  ⟨50, 10, 20, 2, 10, 10, 14⟩

/-- Modelled from the spec: Waveform — an ordered sequence of real samples
at a fixed sampling rate, covering one or more trials.  The object identity
the spec's in-place-versus-copy semantics talks about is embedded as an
explicit identity token objId; sfreq is the sampling rate in Hz; data holds
one sample list per trial. -/
structure Waveform where
  objId : ℕ
  sfreq : ℚ
  data : List (List ℚ)
deriving DecidableEq

/-- Modelled from the spec: SmoothingSpec — a window length in ms for the
convolutional mode, or a cutoff frequency in Hz for the low-pass mode;
the spec requires exactly one of the two fields to be set and makes the
both-set and neither-set states checked at call time. -/
structure SmoothingSpec where
  window_len : Option ℚ
  h_freq : Option ℚ
deriving DecidableEq

/-- Sample access with the zero padding of the convolution's natural
boundary behavior: positions outside the sample list read as 0. -/
def getPad (x : List ℚ) (i : ℤ) : ℚ :=
  if 0 ≤ i then x.getD i.toNat 0 else 0

/-- Modelled from the spec: the unnormalized weight of tap k in a
symmetric positive window of length N.  The transcendental cosine profile
of the Hamming window is replaced by a rational symmetric positive
profile; every property proved below depends only on symmetry, positivity
and normalization of the window, not on its exact shape. -/
def winWeight (N k : ℕ) : ℚ := (((k + 1) * (N - k) : ℕ) : ℚ)

/-- Raw (unnormalized) smoothing window of length N. -/
def rawWindow (N : ℕ) : List ℚ := (List.range N).map (winWeight N)

/-- Normalization of a kernel so its taps sum to 1. -/
def normalizeKernel (l : List ℚ) : List ℚ :=
  if l.sum = 0 then l else l.map (fun a => a / l.sum)

/-- Modelled from the spec: the normalized symmetric smoothing window of
length N (the stand-in for the normalized Hamming window). -/
def hammingWindow (N : ℕ) : List ℚ := normalizeKernel (rawWindow N)

/-- Modelled from the spec: the window length converted from ms to a
sample count using the waveform's sampling rate, at least one sample. -/
def windowSamples (sfreq wl : ℚ) : ℕ := max 1 ⌊wl * sfreq / 1000⌋.toNat

/-- Modelled from the spec: the half width, in samples, of the low-pass
kernel derived from the cutoff frequency h_freq. -/
def halfWidth (sfreq hf : ℚ) : ℕ := ⌊sfreq / (2 * hf)⌋.toNat

/-- Kernel of the window smoothing mode. -/
def windowKernel (sfreq wl : ℚ) : List ℚ := hammingWindow (windowSamples sfreq wl)

/-- Kernel of the frequency smoothing mode: always of odd length, hence
symmetric about a central tap — a zero-phase (forward-backward equivalent)
low-pass realization. -/
def freqKernel (sfreq hf : ℚ) : List ℚ := hammingWindow (2 * halfWidth sfreq hf + 1)

/-- Output sample i of the centered same-length convolution of a sample
list with a kernel, with the zero-padded natural boundary behavior. -/
def convAt (ker x : List ℚ) (i : ℕ) : ℚ :=
  ∑ k ∈ Finset.range ker.length,
    ker.getD k 0 * getPad x ((i : ℤ) + (k : ℤ) - (((ker.length - 1) / 2 : ℕ) : ℤ))

/-- Centered same-length convolution of a sample list with a kernel, with
the zero-padded natural boundary behavior at the edges. -/
def convSame (ker x : List ℚ) : List ℚ :=
  (List.range x.length).map (convAt ker x)

/-- Modelled from the spec: the kernel a SmoothingSpec selects at a given
sampling rate (empty when the spec is malformed). -/
def kernelOf (spec : SmoothingSpec) (sfreq : ℚ) : List ℚ :=
  match spec.window_len, spec.h_freq with
  | some wl, none => windowKernel sfreq wl
  | none, some hf => freqKernel sfreq hf
  | _, _ => []

/-- Modelled from the spec: application of a smoothing kernel to every
trial of a waveform.  The result pair is (state of the input object after
the call, returned waveform): with inPlace the input object is mutated and
returned itself; without it the input is untouched and a fresh identity is
returned. -/
def smoothApply (w : Waveform) (ker : List ℚ) (inPlace : Bool) :
    Waveform × Waveform :=
  let sm := w.data.map (convSame ker)
  if inPlace then
    (⟨w.objId, w.sfreq, sm⟩, ⟨w.objId, w.sfreq, sm⟩)
  else
    (w, ⟨w.objId + 1, w.sfreq, sm⟩)

/-- Modelled from the spec: smooth(wave, spec, in_place).  Exactly one of
window_len and h_freq must be set; otherwise the call fails with
InvalidParameterError.  Each trial is smoothed independently with the
selected kernel. -/
def smooth (w : Waveform) (spec : SmoothingSpec) (inPlace : Bool) :
    Except ProcError (Waveform × Waveform) :=
  match spec.window_len, spec.h_freq with
  | some wl, none => .ok (smoothApply w (windowKernel w.sfreq wl) inPlace)
  | none, some hf => .ok (smoothApply w (freqKernel w.sfreq hf) inPlace)
  | _, _ => .error .invalidParameter

/-- Non-triviality of a SmoothingSpec at a sampling rate: the selected
kernel has more than one tap, so the smoothing is not the identity
convolution. -/
def SmoothingSpec.nontrivial (spec : SmoothingSpec) (sfreq : ℚ) : Bool :=
  decide (1 < (kernelOf spec sfreq).length)

/-- Result pair of a successful smooth call, a dummy pair on error. -/
def resOf (r : Except ProcError (Waveform × Waveform)) : Waveform × Waveform :=
  r.toOption.getD (⟨0, 0, []⟩, ⟨0, 0, []⟩)

/-- Trial-wise time reversal of a waveform, used to express the zero-phase
(no time shift) property of the frequency smoothing mode. -/
def waveReverse (w : Waveform) : Waveform :=
  ⟨w.objId, w.sfreq, w.data.map List.reverse⟩

/-- SmoothingSpec selecting the frequency mode with cutoff hf. -/
def hfSpec (hf : ℚ) : SmoothingSpec := ⟨none, some hf⟩

/-- Modelled from the spec: PSDResult — an ordered sequence of
(frequency, power) pairs restricted to a frequency band. -/
structure PSDResult where
  pairs : List (ℚ × ℚ)
deriving DecidableEq

/-- Modelled from the spec: a rational surrogate for the cosine DFT basis
factor at frequency index k, sample i, length n (a square wave; the claims
proved below depend only on the resulting power being a scaled sum of
squares, not on the exact basis shape). -/
def cosSur (n k i : ℕ) : ℚ := if (k * i) % (2 * n) < n then 1 else -1

/-- Modelled from the spec: the quadrature counterpart of cosSur. -/
def sinSur (n k i : ℕ) : ℚ := if (k * i + n / 2) % (2 * n) < n then 1 else -1

/-- Modelled from the spec: the (non-negative) power estimate at frequency
index k of a sample list — a periodogram-style scaled sum of squares. -/
def powerAt (x : List ℚ) (k : ℕ) : ℚ :=
  (((List.range x.length).map (fun i => x.getD i 0 * cosSur x.length k i)).sum ^ 2 +
    ((List.range x.length).map (fun i => x.getD i 0 * sinSur x.length k i)).sum ^ 2) /
    (x.length : ℚ)

/-- Modelled from the spec: the banded (frequency, power) pairs of a
trial's sample list — frequencies at multiples of the resolution
sfreq / n up to the half-sample-rate index, restricted to the band from
fmin to fmax. -/
def bandPairs (x : List ℚ) (sfreq fmin fmax : ℚ) : List (ℚ × ℚ) :=
  (((List.range (x.length / 2 + 1)).map
      (fun (k : ℕ) => (k, (k : ℚ) * (sfreq / (x.length : ℚ))))).filter
    (fun kf => decide (fmin ≤ kf.2) && decide (kf.2 ≤ fmax))).map
    (fun kf => (kf.2, powerAt x kf.1))

/-- Modelled from the spec: psd(wave, fmin, fmax, trial_index).  Fails with
InvalidParameterError if fmin ≥ fmax, fmin < 0, or the trial index is out
of range; otherwise estimates power over the full sample range of the
named trial at the frequency resolution sfreq / n and returns only the
band from fmin to fmax. -/
def psd (w : Waveform) (fmin fmax : ℚ) (trial : ℕ) :
    Except ProcError PSDResult :=
  if fmax ≤ fmin ∨ fmin < 0 ∨ w.data.length ≤ trial then
    .error .invalidParameter
  else
    .ok ⟨bandPairs (w.data.getD trial []) w.sfreq fmin fmax⟩

/-- Result of a successful psd call, the empty result on error. -/
def psdOf (r : Except ProcError PSDResult) : PSDResult :=
  r.toOption.getD ⟨[]⟩

/-- C1: for every BurstTrainSpec (including its seed) and horizon, two calls
of generate with identical arguments yield identical SpikeEvent sequences:
same event count, same times, same ordering. -/
theorem generate_deterministic (s₁ s₂ : BurstTrainSpec) (h₁ h₂ : ℚ)
    (hs : s₁ = s₂) (hh : h₁ = h₂) :
    generate s₁ h₁ = generate s₂ h₂ ∧
    eventsOf (generate s₁ h₁) = eventsOf (generate s₂ h₂) ∧
    (eventsOf (generate s₁ h₁)).length = (eventsOf (generate s₂ h₂)).length := by
  subst hs; subst hh; exact ⟨rfl, rfl, rfl⟩

/-- Witness for C1: two calls on the tutorial's proximal alpha drive spec
(seed 14) with horizon 310 agree. -/
theorem generate_deterministic_witness :
    generate alphaSpec 310 = generate alphaSpec 310 ∧
    eventsOf (generate alphaSpec 310) = eventsOf (generate alphaSpec 310) ∧
    (eventsOf (generate alphaSpec 310)).length =
      (eventsOf (generate alphaSpec 310)).length :=
  generate_deterministic alphaSpec alphaSpec 310 310 rfl rfl

/-- C5: generate raises InvalidParameterError exactly when the spec or
horizon is malformed (burst rate ≤ 0, numspikes < 1, repeats < 1, or
horizon < start time), and on error no partial SpikeEvent sequence is
produced. -/
theorem generate_invalid_iff (spec : BurstTrainSpec) (horizon : ℚ) :
    (generate spec horizon = .error .invalidParameter ↔
      spec.burst_rate ≤ 0 ∨ spec.numspikes < 1 ∨ spec.repeats < 1 ∨
        horizon < spec.tstart) ∧
    (generate spec horizon = .error .invalidParameter →
      eventsOf (generate spec horizon) = []) := by
  by_cases h : 0 < spec.burst_rate ∧ 1 ≤ spec.numspikes ∧ 1 ≤ spec.repeats ∧
      spec.tstart ≤ horizon
  · obtain ⟨h1, h2, h3, h4⟩ := h
    have hok : generate spec horizon =
        .ok (List.insertionSort timeLE
          ((rawEvents spec).filter (fun e => decide (e.time ≤ horizon)))) := by
      unfold generate
      rw [if_pos ⟨h1, h2, h3, h4⟩]
    rw [hok]
    refine ⟨⟨fun hco => absurd hco (by simp), fun hco => ?_⟩, fun hco => absurd hco (by simp)⟩
    rcases hco with hc | hc | hc | hc
    · exact absurd h1 (not_lt.mpr hc)
    · omega
    · omega
    · exact absurd h4 (not_le.mpr hc)
  · have herr : generate spec horizon = .error .invalidParameter := by
      unfold generate
      rw [if_neg h]
    rw [herr]
    push_neg at h
    refine ⟨⟨fun _ => ?_, fun _ => rfl⟩, fun _ => rfl⟩
    by_cases hb : 0 < spec.burst_rate
    · by_cases hn : 1 ≤ spec.numspikes
      · by_cases hr : 1 ≤ spec.repeats
        · exact Or.inr (Or.inr (Or.inr (h hb hn hr)))
        · exact Or.inr (Or.inr (Or.inl (by omega)))
      · exact Or.inr (Or.inl (by omega))
    · exact Or.inl (not_lt.mp hb)

/-- C4: every successful generation is ordered by ascending event time and
contains no event with time greater than the horizon (events scheduled
beyond the horizon are dropped). -/
theorem generate_sorted_le_horizon (spec : BurstTrainSpec) (horizon : ℚ)
    (evs : List SpikeEvent) (h : generate spec horizon = .ok evs) :
    evs.Sorted timeLE ∧ ∀ e ∈ evs, e.time ≤ horizon := by
  unfold generate at h
  split at h
  · injection h with h'
    subst h'
    refine ⟨List.sorted_insertionSort timeLE _, fun e he => ?_⟩
    have hmem : e ∈ (rawEvents spec).filter (fun e => decide (e.time ≤ horizon)) :=
      (List.perm_insertionSort timeLE _).mem_iff.mp he
    exact of_decide_eq_true (List.mem_filter.mp hmem).2
  · cases h

unseal Rat.add Rat.mul Rat.inv Rat.sub in
/-- Witness for C4: the tutorial's proximal alpha drive with horizon 310. -/
theorem generate_sorted_le_horizon_witness :
    (eventsOf (generate alphaSpec 310)).Sorted timeLE ∧
    ∀ e ∈ eventsOf (generate alphaSpec 310), e.time ≤ 310 :=
  generate_sorted_le_horizon alphaSpec 310 (eventsOf (generate alphaSpec 310))
    (by rfl)

unseal Rat.add Rat.mul Rat.inv Rat.sub in
/-- C3: the section 8 scenario — generate on BurstTrainSpec(start=50,
rate=10, std=20, numspikes=2, isi=10, repeats=10, seed=14) with horizon 310
produces at most 20 events, every event time lies in the interval
from 50 to 310, and within each burst the two spikes are exactly 10 ms
apart. -/
theorem generate_alpha_scenario :
    (eventsOf (generate alphaSpec 310)).length ≤ 20 ∧
    (∀ e ∈ eventsOf (generate alphaSpec 310), 50 ≤ e.time ∧ e.time ≤ 310) ∧
    (∀ e₁ ∈ eventsOf (generate alphaSpec 310),
      ∀ e₂ ∈ eventsOf (generate alphaSpec 310),
        e₁.burst = e₂.burst → e₁.spike = 0 → e₂.spike = 1 →
          e₂.time - e₁.time = 10) := by
  decide

/-- C6: smooth raises InvalidParameterError exactly when the mode choice is
malformed — both of window_len and h_freq set, or neither set — and
proceeds only when exactly one of the two modes is chosen. -/
theorem smooth_mode_exclusive (w : Waveform) (spec : SmoothingSpec) (ip : Bool) :
    smooth w spec ip = .error .invalidParameter ↔
      (spec.window_len.isSome = true ∧ spec.h_freq.isSome = true) ∨
      (spec.window_len = none ∧ spec.h_freq = none) := by
  rcases spec with ⟨wl, hf⟩
  rcases wl with _ | wl <;> rcases hf with _ | hf <;> simp [smooth]

unseal Rat.add Rat.mul Rat.inv Rat.sub in
/-- C2 counterexample: on the constant-zero waveform, the default-mode
smooth call with a non-trivial window spec (a 3-tap kernel) leaves the
input untouched and returns a new Waveform whose samples are nonetheless
identical to the input's — refuting the claim's clause that the returned
Waveform differs from the input whenever the spec is non-trivial. -/
theorem smooth_differs_counterexample :
    SmoothingSpec.nontrivial ⟨some 3, none⟩ 1000 = true ∧
    smooth ⟨0, 1000, [[0, 0, 0, 0, 0, 0]]⟩ ⟨some 3, none⟩ false =
      .ok (⟨0, 1000, [[0, 0, 0, 0, 0, 0]]⟩, ⟨1, 1000, [[0, 0, 0, 0, 0, 0]]⟩) ∧
    (resOf (smooth ⟨0, 1000, [[0, 0, 0, 0, 0, 0]]⟩ ⟨some 3, none⟩ false)).2.data =
      [[0, 0, 0, 0, 0, 0]] := by
  exact ⟨rfl, rfl, rfl⟩

/-- C2 (amended): smooth(w, spec, in_place=false) leaves w bit-identical
to its value before the call and returns a new Waveform (a fresh identity
carrying the smoothed samples at the same sampling rate); the returned
samples can coincide with w's on special inputs such as the constant-zero
waveform, even for a non-trivial spec. -/
theorem smooth_not_in_place (w : Waveform) (spec : SmoothingSpec)
    (p : Waveform × Waveform) (h : smooth w spec false = .ok p) :
    p.1 = w ∧ p.2.objId ≠ w.objId ∧ p.2.sfreq = w.sfreq ∧
    p.2.data = w.data.map (convSame (kernelOf spec w.sfreq)) := by
  rcases spec with ⟨wl, hf⟩
  rcases wl with _ | wl <;> rcases hf with _ | hf <;>
    simp only [smooth, smoothApply, kernelOf] at h ⊢
  · cases h
  · injection h with h'
    subst h'
    exact ⟨rfl, Nat.succ_ne_self w.objId, rfl, rfl⟩
  · injection h with h'
    subst h'
    exact ⟨rfl, Nat.succ_ne_self w.objId, rfl, rfl⟩
  · cases h

unseal Rat.add Rat.mul Rat.inv Rat.sub in
/-- Witness for C2 (amended): a concrete four-sample waveform smoothed in
the default mode with a 3 ms window. -/
theorem smooth_not_in_place_witness :
    (resOf (smooth ⟨5, 1000, [[1, 2, 3, 4]]⟩ ⟨some 3, none⟩ false)).1 =
      ⟨5, 1000, [[1, 2, 3, 4]]⟩ ∧
    (resOf (smooth ⟨5, 1000, [[1, 2, 3, 4]]⟩ ⟨some 3, none⟩ false)).2.objId ≠
      (⟨5, 1000, [[1, 2, 3, 4]]⟩ : Waveform).objId ∧
    (resOf (smooth ⟨5, 1000, [[1, 2, 3, 4]]⟩ ⟨some 3, none⟩ false)).2.sfreq =
      (⟨5, 1000, [[1, 2, 3, 4]]⟩ : Waveform).sfreq ∧
    (resOf (smooth ⟨5, 1000, [[1, 2, 3, 4]]⟩ ⟨some 3, none⟩ false)).2.data =
      (⟨5, 1000, [[1, 2, 3, 4]]⟩ : Waveform).data.map
        (convSame (kernelOf ⟨some 3, none⟩ (⟨5, 1000, [[1, 2, 3, 4]]⟩ : Waveform).sfreq)) :=
  smooth_not_in_place ⟨5, 1000, [[1, 2, 3, 4]]⟩ ⟨some 3, none⟩
    (resOf (smooth ⟨5, 1000, [[1, 2, 3, 4]]⟩ ⟨some 3, none⟩ false)) (by rfl)

/-- C7: smooth(w, spec, in_place=true) mutates w's samples (the post-call
state of w carries the smoothed data) and returns the very same Waveform
identity: the returned object is w itself, with w's identity token and
sampling rate. -/
theorem smooth_in_place (w : Waveform) (spec : SmoothingSpec)
    (p : Waveform × Waveform) (h : smooth w spec true = .ok p) :
    p.2 = p.1 ∧ p.2.objId = w.objId ∧ p.2.sfreq = w.sfreq ∧
    p.2.data = w.data.map (convSame (kernelOf spec w.sfreq)) := by
  rcases spec with ⟨wl, hf⟩
  rcases wl with _ | wl <;> rcases hf with _ | hf <;>
    simp only [smooth, smoothApply, kernelOf] at h ⊢
  · cases h
  · injection h with h'
    subst h'
    exact ⟨rfl, rfl, rfl, rfl⟩
  · injection h with h'
    subst h'
    exact ⟨rfl, rfl, rfl, rfl⟩
  · cases h

unseal Rat.add Rat.mul Rat.inv Rat.sub in
/-- Witness for C7: a concrete four-sample waveform smoothed in place with
a 30 Hz cutoff. -/
theorem smooth_in_place_witness :
    (resOf (smooth ⟨7, 1000, [[1, 2, 3, 4]]⟩ ⟨none, some 30⟩ true)).2 =
      (resOf (smooth ⟨7, 1000, [[1, 2, 3, 4]]⟩ ⟨none, some 30⟩ true)).1 ∧
    (resOf (smooth ⟨7, 1000, [[1, 2, 3, 4]]⟩ ⟨none, some 30⟩ true)).2.objId =
      (⟨7, 1000, [[1, 2, 3, 4]]⟩ : Waveform).objId ∧
    (resOf (smooth ⟨7, 1000, [[1, 2, 3, 4]]⟩ ⟨none, some 30⟩ true)).2.sfreq =
      (⟨7, 1000, [[1, 2, 3, 4]]⟩ : Waveform).sfreq ∧
    (resOf (smooth ⟨7, 1000, [[1, 2, 3, 4]]⟩ ⟨none, some 30⟩ true)).2.data =
      (⟨7, 1000, [[1, 2, 3, 4]]⟩ : Waveform).data.map
        (convSame (kernelOf ⟨none, some 30⟩ (⟨7, 1000, [[1, 2, 3, 4]]⟩ : Waveform).sfreq)) :=
  smooth_in_place ⟨7, 1000, [[1, 2, 3, 4]]⟩ ⟨none, some 30⟩
    (resOf (smooth ⟨7, 1000, [[1, 2, 3, 4]]⟩ ⟨none, some 30⟩ true)) (by rfl)

theorem getPad_reverse (x : List ℚ) (j : ℤ) :
    getPad x.reverse j = getPad x ((x.length : ℤ) - 1 - j) := by
  unfold getPad
  by_cases hj : 0 ≤ j
  · rw [if_pos hj]
    by_cases hlt : j < (x.length : ℤ)
    · have hj' : j.toNat < x.length := by omega
      have h2 : (0 : ℤ) ≤ (x.length : ℤ) - 1 - j := by omega
      rw [if_pos h2]
      have hr : j.toNat < x.reverse.length := by simpa using hj'
      rw [List.getD_eq_getElem _ _ hr,
        List.getD_eq_getElem _ _
          (show ((x.length : ℤ) - 1 - j).toNat < x.length by omega),
        List.getElem_reverse]
      congr 1
      omega
    · have hge : x.reverse.length ≤ j.toNat := by
        rw [List.length_reverse]
        omega
      rw [List.getD_eq_default _ _ hge,
        if_neg (show ¬(0 : ℤ) ≤ (x.length : ℤ) - 1 - j by omega)]
  · rw [if_neg hj, if_pos (show (0 : ℤ) ≤ (x.length : ℤ) - 1 - j by omega),
      List.getD_eq_default _ _
        (show x.length ≤ ((x.length : ℤ) - 1 - j).toNat by omega)]

theorem rawWindow_getD (N k : ℕ) (hk : k < N) :
    (rawWindow N).getD k 0 = winWeight N k := by
  rw [List.getD_eq_getElem _ _ (by simpa [rawWindow] using hk)]
  simp [rawWindow]

theorem winWeight_symm (N k : ℕ) (hk : k < N) :
    winWeight N (N - 1 - k) = winWeight N k := by
  unfold winWeight
  have h : (N - 1 - k + 1) * (N - (N - 1 - k)) = (k + 1) * (N - k) := by
    have h1 : N - 1 - k + 1 = N - k := by omega
    have h2 : N - (N - 1 - k) = k + 1 := by omega
    rw [h1, h2, Nat.mul_comm]
  exact congrArg (fun m : ℕ => (m : ℚ)) h

theorem hammingWindow_length (N : ℕ) : (hammingWindow N).length = N := by
  unfold hammingWindow normalizeKernel
  split <;> simp [rawWindow]

theorem hammingWindow_getD (N k : ℕ) (hk : k < N) :
    (hammingWindow N).getD k 0 =
      if (rawWindow N).sum = 0 then winWeight N k
      else winWeight N k / (rawWindow N).sum := by
  unfold hammingWindow normalizeKernel
  by_cases hs : (rawWindow N).sum = 0
  · rw [if_pos hs, if_pos hs, rawWindow_getD N k hk]
  · rw [if_neg hs, if_neg hs,
      List.getD_eq_getElem _ _ (by simpa [rawWindow] using hk)]
    simp [rawWindow]

theorem hammingWindow_symm (N k : ℕ) (hk : k < N) :
    (hammingWindow N).getD (N - 1 - k) 0 = (hammingWindow N).getD k 0 := by
  rw [hammingWindow_getD N (N - 1 - k) (by omega), hammingWindow_getD N k hk,
    winWeight_symm N k hk]

theorem convSame_length (ker x : List ℚ) : (convSame ker x).length = x.length := by
  simp [convSame]

theorem convAt_reverse (ker x : List ℚ)
    (hsym : ∀ k, k < ker.length → ker.getD (ker.length - 1 - k) 0 = ker.getD k 0)
    (hodd : ker.length = 2 * ((ker.length - 1) / 2) + 1)
    (i : ℕ) (hi : i < x.length) :
    convAt ker x.reverse i = convAt ker x (x.length - 1 - i) := by
  unfold convAt
  have hN2 : ker.length = 2 * (((ker.length - 1) / 2 : ℕ)) + 1 := hodd
  have step1 : ∀ k ∈ Finset.range ker.length,
      ker.getD k 0 * getPad x.reverse
        ((i : ℤ) + (k : ℤ) - (((ker.length - 1) / 2 : ℕ) : ℤ)) =
      ker.getD k 0 * getPad x
        (((x.length : ℤ) - 1 - i) - (k : ℤ) + (((ker.length - 1) / 2 : ℕ) : ℤ)) := by
    intro k _
    rw [getPad_reverse]
    congr 2
    omega
  rw [Finset.sum_congr rfl step1, ← Finset.sum_range_reflect
    (fun k => ker.getD k 0 * getPad x
      (((x.length : ℤ) - 1 - i) - (k : ℤ) + (((ker.length - 1) / 2 : ℕ) : ℤ)))
    ker.length]
  apply Finset.sum_congr rfl
  intro k hk
  have hkN : k < ker.length := Finset.mem_range.mp hk
  rw [hsym k hkN]
  have harg : ((x.length : ℤ) - 1 - i) - ((ker.length - 1 - k : ℕ) : ℤ) +
      (((ker.length - 1) / 2 : ℕ) : ℤ) =
      ((x.length - 1 - i : ℕ) : ℤ) + (k : ℤ) - (((ker.length - 1) / 2 : ℕ) : ℤ) := by
    omega
  rw [harg]

theorem freqKernel_symm (sfreq hf : ℚ) (k : ℕ)
    (hk : k < (freqKernel sfreq hf).length) :
    (freqKernel sfreq hf).getD ((freqKernel sfreq hf).length - 1 - k) 0 =
      (freqKernel sfreq hf).getD k 0 := by
  unfold freqKernel at hk ⊢
  rw [hammingWindow_length] at hk ⊢
  exact hammingWindow_symm _ k hk

theorem freqKernel_odd (sfreq hf : ℚ) :
    (freqKernel sfreq hf).length =
      2 * (((freqKernel sfreq hf).length - 1) / 2) + 1 := by
  unfold freqKernel
  rw [hammingWindow_length]
  omega

theorem convSame_freq_reverse (sfreq hf : ℚ) (x : List ℚ) :
    convSame (freqKernel sfreq hf) x.reverse =
      (convSame (freqKernel sfreq hf) x).reverse := by
  apply List.ext_getElem
  · simp [convSame_length]
  · intro i h1 h2
    have hx : i < x.length := by simpa [convSame_length] using h1
    rw [List.getElem_reverse]
    simp only [convSame, List.getElem_map, List.getElem_range, List.length_map,
      List.length_range, List.length_reverse]
    exact convAt_reverse (freqKernel sfreq hf) x
      (fun k hk => freqKernel_symm sfreq hf k hk) (freqKernel_odd sfreq hf) i hx

/-- C8: in frequency mode the smoothing is zero-phase — it commutes with
time reversal of the waveform, so it introduces no time shift relative to
the input, and it preserves every trial's sample count, so every sample of
the smoothed Waveform remains aligned to the original sample grid. -/
theorem smooth_hfreq_zero_phase (w : Waveform) (hf : ℚ) (ip : Bool) :
    smooth (waveReverse w) (hfSpec hf) ip =
      (smooth w (hfSpec hf) ip).map
        (fun p => (waveReverse p.1, waveReverse p.2)) ∧
    ∀ p, smooth w (hfSpec hf) ip = .ok p →
      p.2.data.map List.length = w.data.map List.length := by
  have hrev : (w.data.map List.reverse).map (convSame (freqKernel w.sfreq hf)) =
      (w.data.map (convSame (freqKernel w.sfreq hf))).map List.reverse := by
    rw [List.map_map, List.map_map]
    exact List.map_congr_left
      (fun t _ => convSame_freq_reverse w.sfreq hf t)
  constructor
  · cases ip <;>
      simp only [smooth, hfSpec, smoothApply, waveReverse, Except.map,
        Bool.false_eq_true, if_false, if_true, Prod.mk.injEq,
        Waveform.mk.injEq] <;>
      rw [hrev]
  · intro p hp
    have hps : p = smoothApply w (freqKernel w.sfreq hf) ip := by
      have : Except.ok (ε := ProcError)
          (smoothApply w (freqKernel w.sfreq hf) ip) = .ok p := hp
      injection this with h'
      exact h'.symm
    subst hps
    cases ip <;>
      simp only [smoothApply, Bool.false_eq_true, if_false, if_true,
        List.map_map] <;>
      exact List.map_congr_left (fun t _ => convSame_length _ t)

theorem bandPairs_sorted (x : List ℚ) (sfreq fmin fmax : ℚ) (hsf : 0 < sfreq) :
    (bandPairs x sfreq fmin fmax).Pairwise (fun p q => p.1 < q.1) := by
  unfold bandPairs
  refine List.Pairwise.map _ (fun a b hab => hab) ?_
  apply List.Pairwise.filter
  rw [List.pairwise_map]
  by_cases hn : x.length = 0
  · rw [hn]
    simp
    decide
  · have hdf : 0 < sfreq / (x.length : ℚ) :=
      div_pos hsf (by exact_mod_cast Nat.pos_of_ne_zero hn)
    exact (List.pairwise_lt_range _).imp
      (fun hab => mul_lt_mul_of_pos_right (by exact_mod_cast hab) hdf)

theorem bandPairs_mem (x : List ℚ) (sfreq fmin fmax : ℚ) :
    ∀ p ∈ bandPairs x sfreq fmin fmax,
      (fmin ≤ p.1 ∧ p.1 ≤ fmax) ∧ 0 ≤ p.2 := by
  intro p hp
  unfold bandPairs at hp
  obtain ⟨kf, hkf, rfl⟩ := List.mem_map.mp hp
  obtain ⟨_, hcond⟩ := List.mem_filter.mp hkf
  simp only [Bool.and_eq_true, decide_eq_true_eq] at hcond
  refine ⟨⟨hcond.1, hcond.2⟩, ?_⟩
  unfold powerAt
  apply div_nonneg
  · positivity
  · positivity

/-- C9: every PSDResult returned by psd (on a waveform with a positive
sampling rate) has a monotonically increasing frequency axis, every
frequency in the caller-specified band from fmin to fmax, and every power
value non-negative. -/
theorem psd_result_invariants (w : Waveform) (fmin fmax : ℚ) (trial : ℕ)
    (hsf : 0 < w.sfreq) (r : PSDResult) (h : psd w fmin fmax trial = .ok r) :
    r.pairs.Pairwise (fun p q => p.1 < q.1) ∧
    (∀ p ∈ r.pairs, fmin ≤ p.1 ∧ p.1 ≤ fmax) ∧
    (∀ p ∈ r.pairs, 0 ≤ p.2) := by
  unfold psd at h
  split at h
  · cases h
  · injection h with h'
    subst h'
    exact ⟨bandPairs_sorted _ _ _ _ hsf,
      fun p hp => (bandPairs_mem _ _ _ _ p hp).1,
      fun p hp => (bandPairs_mem _ _ _ _ p hp).2⟩

unseal Rat.add Rat.mul Rat.inv Rat.sub in
/-- Witness for C9: the PSD of a concrete four-sample waveform over the
band from 0 to 600 Hz. -/
theorem psd_result_invariants_witness :
    (psdOf (psd ⟨0, 1000, [[1, 2, 3, 4]]⟩ 0 600 0)).pairs.Pairwise
      (fun p q => p.1 < q.1) ∧
    (∀ p ∈ (psdOf (psd ⟨0, 1000, [[1, 2, 3, 4]]⟩ 0 600 0)).pairs,
      0 ≤ p.1 ∧ p.1 ≤ 600) ∧
    (∀ p ∈ (psdOf (psd ⟨0, 1000, [[1, 2, 3, 4]]⟩ 0 600 0)).pairs, 0 ≤ p.2) :=
  psd_result_invariants ⟨0, 1000, [[1, 2, 3, 4]]⟩ 0 600 0 (by norm_num)
    (psdOf (psd ⟨0, 1000, [[1, 2, 3, 4]]⟩ 0 600 0)) (by rfl)

/-- C10: psd accepts the boundary value fmin = 0 — for a Waveform with at
least one trial and any fmax > 0, psd(wave, 0, fmax, 0) succeeds with a
valid result and raises no error. -/
theorem psd_fmin_zero_ok (w : Waveform) (fmax : ℚ)
    (h1 : 1 ≤ w.data.length) (h2 : 0 < fmax) :
    psd w 0 fmax 0 = .ok ⟨bandPairs (w.data.getD 0 []) w.sfreq 0 fmax⟩ := by
  unfold psd
  rw [if_neg]
  intro hcon
  rcases hcon with hc | hc | hc
  · exact absurd h2 (not_lt.mpr hc)
  · exact absurd hc (by norm_num)
  · omega

unseal Rat.add Rat.mul Rat.inv Rat.sub in
/-- Witness for C10: the tutorial's own final PSD call shape, fmin = 0 and
fmax = 40, on a concrete single-trial waveform. -/
theorem psd_fmin_zero_ok_witness :
    psd ⟨0, 1000, [[1, 2, 3, 4]]⟩ 0 40 0 =
      .ok ⟨bandPairs ((⟨0, 1000, [[1, 2, 3, 4]]⟩ : Waveform).data.getD 0 [])
        (⟨0, 1000, [[1, 2, 3, 4]]⟩ : Waveform).sfreq 0 40⟩ :=
  psd_fmin_zero_ok ⟨0, 1000, [[1, 2, 3, 4]]⟩ 40 (by decide) (by norm_num)

unseal Rat.add Rat.mul Rat.inv Rat.sub in
/-- Witness for C5: a malformed call (horizon 40 before the start time 50)
fails with InvalidParameterError and yields no events. -/
theorem generate_invalid_iff_witness :
    (generate alphaSpec 40 = .error .invalidParameter ↔
      alphaSpec.burst_rate ≤ 0 ∨ alphaSpec.numspikes < 1 ∨
        alphaSpec.repeats < 1 ∨ (40 : ℚ) < alphaSpec.tstart) ∧
    (generate alphaSpec 40 = .error .invalidParameter →
      eventsOf (generate alphaSpec 40) = []) :=
  generate_invalid_iff alphaSpec 40

/-- Witness for C6: a spec with neither mode set is rejected. -/
theorem smooth_mode_exclusive_witness :
    smooth ⟨3, 1000, [[1, 2]]⟩ ⟨none, none⟩ false = .error .invalidParameter ↔
      ((⟨none, none⟩ : SmoothingSpec).window_len.isSome = true ∧
        (⟨none, none⟩ : SmoothingSpec).h_freq.isSome = true) ∨
      ((⟨none, none⟩ : SmoothingSpec).window_len = none ∧
        (⟨none, none⟩ : SmoothingSpec).h_freq = none) :=
  smooth_mode_exclusive ⟨3, 1000, [[1, 2]]⟩ ⟨none, none⟩ false

/-- Witness for C8: the zero-phase property at a concrete waveform and the
tutorial's 30 Hz cutoff. -/
theorem smooth_hfreq_zero_phase_witness :
    smooth (waveReverse ⟨2, 1000, [[1, 2, 3, 4]]⟩) (hfSpec 30) false =
      (smooth ⟨2, 1000, [[1, 2, 3, 4]]⟩ (hfSpec 30) false).map
        (fun p => (waveReverse p.1, waveReverse p.2)) ∧
    ∀ p, smooth ⟨2, 1000, [[1, 2, 3, 4]]⟩ (hfSpec 30) false = .ok p →
      p.2.data.map List.length =
        (⟨2, 1000, [[1, 2, 3, 4]]⟩ : Waveform).data.map List.length :=
  smooth_hfreq_zero_phase ⟨2, 1000, [[1, 2, 3, 4]]⟩ 30 false

end HnnCore
